import Mathlib

/-!
Shallow embedding of the crossword CSP solver in `src/crossword/generate.py`
(class `CrosswordCreator`).  Python strings become `List Char`; the mutable
`self.domains` dict becomes a function `V → List Word` threaded through each
operation; `self.crossword` (the `Crossword` model built by the external
`crossword.py`, which is not part of the sources) is modelled from the spec as
a `Puzzle` structure.  Variables are an abstract type `V` with decidable
equality and finitely many inhabitants (a puzzle has finitely many variables).
-/

set_option linter.unusedSectionVars false

namespace CrosswordGen

/-- A word of the dictionary: a Python string, embedded as its character list. -/
abbrev Word : Type := List Char

/-- Modelled from the spec: the external Puzzle Model (`crossword.py` is not in
the sources).  `vars` is the variable set in its iteration order (the keys of
`self.domains`); `length` gives each variable's length; `overlaps` is the
overlap map, storing for a neighboring pair the two character positions that
must match and `none` for a non-neighboring pair. -/
structure Puzzle (V : Type) where
  vars : List V
  length : V → Nat
  overlaps : V → V → Option (Nat × Nat)

/-- The Domain Store `self.domains`: each variable's current candidate words. -/
abbrev Domains (V : Type) : Type := V → List Word

/-- A partial assignment (the Python dict mapping variables to words). -/
abbrev Assignment (V : Type) : Type := V → Option Word

variable {V : Type} [DecidableEq V] [Fintype V]

/-- Modelled from the spec: `Crossword.neighbors(v)` of the external model —
the variables sharing a cell with `v`, i.e. the distinct variables for which
the overlap map stores an entry. -/
def neighborsOf (P : Puzzle V) (v : V) : List V :=
  P.vars.filter (fun w => w ≠ v ∧ (P.overlaps v w).isSome)

/-- The helper `check(shared, word)` inside `revise` (generate.py lines
121-130): `word` is consistent with some word of `y`'s domain at the overlap
positions `i` (into `word`) and `j` (into the other word). -/
def chk (dy : List Word) (i j : Nat) (word : Word) : Bool :=
  dy.any (fun w => word.get? i == w.get? j)

/-- The function `revise(x, y)` (generate.py lines 112-149), returning the
Python return value together with the domain store it leaves behind. -/
def revise (P : Puzzle V) (d : Domains V) (x y : V) : Bool × Domains V :=
  match P.overlaps x y with
  | none => (false, d)
  | some (i, j) =>
    let inconsistent := (d x).filter (fun w => !(chk (d y) i j w))
    if inconsistent.isEmpty then (false, d)
    else (true, Function.update d x ((d x).filter (fun w => decide (w ∉ inconsistent))))

/-- Total number of candidate words across all variables (the termination
measure of AC-3: every revision strictly removes some word). -/
def sumSize (d : Domains V) : Nat :=
  ∑ v : V, (d v).length

omit [Fintype V] in
lemma revise_of_overlap {P : Puzzle V} {d : Domains V} {x y : V} {i j : Nat}
    (hov : P.overlaps x y = some (i, j)) :
    revise P d x y =
      (if ((d x).filter (fun w => !(chk (d y) i j w))).isEmpty then (false, d)
       else (true, Function.update d x
         ((d x).filter (fun w =>
           decide (w ∉ (d x).filter (fun w => !(chk (d y) i j w))))))) := by
  unfold revise
  rw [hov]

omit [Fintype V] in
lemma revise_fst_false {P : Puzzle V} {d : Domains V} {x y : V}
    (h : (revise P d x y).1 = false) : (revise P d x y).2 = d := by
  cases hov : P.overlaps x y with
  | none => unfold revise; rw [hov]
  | some p =>
    obtain ⟨i, j⟩ := p
    rw [revise_of_overlap hov] at h ⊢
    by_cases he : ((d x).filter (fun w => !(chk (d y) i j w))).isEmpty
    · simp [he]
    · simp [he] at h

lemma length_filter_lt_of_mem_not {l : List Word} {p : Word → Bool} {w : Word}
    (hw : w ∈ l) (hp : p w = false) : (l.filter p).length < l.length := by
  induction l with
  | nil => cases hw
  | cons a as ih =>
    rcases List.mem_cons.mp hw with h | h
    · subst h
      have hle : (as.filter p).length ≤ as.length := List.length_filter_le p as
      simp [List.filter_cons, hp]
      omega
    · by_cases ha : p a
      · simp only [List.filter_cons, ha, if_true, List.length_cons]
        exact Nat.succ_lt_succ (ih h)
      · have ha2 : p a = false := by simpa using ha
        have := ih h
        simp [List.filter_cons, ha2]
        omega

lemma sumSize_update_lt {d : Domains V} {x : V} {l : List Word}
    (h : l.length < (d x).length) : sumSize (Function.update d x l) < sumSize d := by
  unfold sumSize
  have h1 : ∀ v, (Function.update d x l v).length
      = Function.update (fun v => (d v).length) x l.length v := fun v =>
    Function.apply_update (fun _ s => s.length) d x l v
  simp only [h1]
  rw [Finset.sum_update_of_mem (Finset.mem_univ x)]
  have h2 : ∑ v : V, (d v).length
      = (d x).length + ∑ v in Finset.univ \ {x}, (d v).length := by
    rw [Finset.sum_eq_add_sum_diff_singleton (Finset.mem_univ x) (fun v => (d v).length)]
  omega

lemma revise_fst_true_sumSize {P : Puzzle V} {d : Domains V} {x y : V}
    (h : (revise P d x y).1 = true) : sumSize (revise P d x y).2 < sumSize d := by
  cases hov : P.overlaps x y with
  | none => unfold revise at h; rw [hov] at h; simp at h
  | some p =>
    obtain ⟨i, j⟩ := p
    rw [revise_of_overlap hov] at h ⊢
    by_cases he : ((d x).filter (fun w => !(chk (d y) i j w))).isEmpty
    · simp [he] at h
    · simp only [he, if_false]
      have hne : ((d x).filter (fun w => !(chk (d y) i j w))) ≠ [] := by
        simpa [List.isEmpty_iff] using he
      obtain ⟨w0, hw0⟩ := List.exists_mem_of_ne_nil _ hne
      have hw0x : w0 ∈ d x := (List.mem_filter.mp hw0).1
      apply sumSize_update_lt
      apply length_filter_lt_of_mem_not hw0x
      simp [hw0]

/-- The worklist loop of `ac3` (generate.py lines 173-182): Python iterates
over the list `queue` while appending to it, i.e. FIFO processing of the
remaining suffix. -/
def ac3Loop {V : Type} [DecidableEq V] [Fintype V] (P : Puzzle V) :
    List (V × V) → Domains V → Bool × Domains V
  | [], d => (true, d)
  | (x, y) :: rest, d =>
    let res := revise P d x y
    if h1 : res.1 then
      if (res.2 x).isEmpty then (false, res.2)
      else ac3Loop P (rest ++ (neighborsOf P x).map (fun n => (n, x))) res.2
    else
      ac3Loop P rest res.2
termination_by q d => (sumSize d, q.length)
decreasing_by
  · exact Prod.Lex.left _ _ (revise_fst_true_sumSize h1)
  · have hd : (revise P d x y).2 = d := revise_fst_false (Bool.not_eq_true _ ▸ h1)
    rw [hd]
    exact Prod.Lex.right _ (Nat.lt_succ_self _)

/-- The initial worklist of `ac3()` with the default `arcs = None`
(generate.py lines 160-171): all ordered pairs of distinct variables. -/
def initQueue (vs : List V) : List (V × V) :=
  vs.flatMap (fun x => (vs.filter (fun y => x ≠ y)).map (fun y => (x, y)))

/-- The method `ac3()` as called in this file (always with the default
`arcs = None`), generate.py lines 151-182. -/
def ac3 (P : Puzzle V) (d : Domains V) : Bool × Domains V :=
  ac3Loop P (initQueue P.vars) d

/-- One iteration of the `for var in self.domains` loop of
`enforce_node_consistency` (generate.py lines 104-110): collect the words of
the wrong length into `inconsistent` and remove them from the domain. -/
def encStep (P : Puzzle V) (dc : Domains V) (var : V) : Domains V :=
  let inconsistent := (dc var).filter (fun w => decide (P.length var ≠ w.length))
  Function.update dc var ((dc var).filter (fun w => decide (w ∉ inconsistent)))

/-- The method `enforce_node_consistency()` (generate.py lines 97-110),
returning the domain store it leaves behind. -/
def enforce_node_consistency (P : Puzzle V) (d : Domains V) : Domains V :=
  P.vars.foldl (encStep P) d

/-- The method `assignment_complete(assignment)` (generate.py lines 184-193):
every key of `self.domains` is assigned. -/
def assignment_complete (P : Puzzle V) (a : Assignment V) : Bool :=
  P.vars.all (fun v => (a v).isSome)

/-- The method `consistent(assignment)` (generate.py lines 195-227).  Python
iterates over the assignment's keys; every key is one of the puzzle's
variables, so the embedding iterates `P.vars` and skips unassigned ones. -/
def consistentA (P : Puzzle V) (a : Assignment V) : Bool :=
  P.vars.all (fun var =>
    match a var with
    | none => true
    | some word =>
      (word.length == P.length var) &&
      (P.vars.all (fun v =>
        if v = var then true
        else match a v with
          | none => true
          | some w2 => !(word == w2))) &&
      ((neighborsOf P var).all (fun nb =>
        match P.overlaps var nb, a nb with
        | some (i, j), some nw => word.get? i == nw.get? j
        | _, _ => true)))

/-- One neighbor's contribution to the conflict count of
`order_domain_values` (generate.py lines 245-257): assigned neighbors and
non-overlapping pairs contribute nothing, otherwise every word of the
neighbor's domain that mismatches `word` at the overlap counts once. -/
def roStep (P : Puzzle V) (d : Domains V) (a : Assignment V) (var : V)
    (word : Word) (n : Nat) (nb : V) : Nat :=
  if (a nb).isSome then n
  else match P.overlaps var nb with
    | none => n
    | some (i, j) => n + (d nb).countP (fun w => !(word.get? i == w.get? j))

/-- Number of neighbor-domain values that choosing `word` for `var` would rule
out: the counting loop of `order_domain_values` (generate.py lines 244-258). -/
def ruleOutCount (P : Puzzle V) (d : Domains V) (a : Assignment V)
    (var : V) (word : Word) : Nat :=
  (neighborsOf P var).foldl (roStep P d a var word) 0

/-- Stable insertion into an ascending-by-second-component list: the inserted
pair goes after every strictly smaller value and before equal ones. -/
def insertAsc {α : Type} (p : α × Nat) : List (α × Nat) → List (α × Nat)
  | [] => [p]
  | q :: qs => if q.2 < p.2 then q :: insertAsc p qs else p :: q :: qs

/-- Stable ascending sort by the second component, embedding Python's stable
`sorted(..., key=..., reverse=False)`. -/
def sortByVal {α : Type} : List (α × Nat) → List (α × Nat)
  | [] => []
  | p :: ps => insertAsc p (sortByVal ps)

/-- The method `order_domain_values(var, assignment)` (generate.py lines
229-261): candidates not used elsewhere in the assignment, sorted ascending by
how many neighbor values they rule out.  `assignment.values()` is embedded by
testing the assignment at every variable of the puzzle. -/
def order_domain_values (P : Puzzle V) (d : Domains V) (a : Assignment V)
    (var : V) : List Word :=
  (sortByVal
    (((d var).filter (fun w => !(P.vars.any (fun v => a v == some w)))).map
      (fun w => (w, ruleOutCount P d a var w)))).map Prod.fst

/-- The `order` dict built by `select_unassigned_variable` (generate.py lines
271-283): the state is (current minimum so far, list of minimal variables with
their degrees); `math.inf` is embedded as `none`. -/
def selStep (P : Puzzle V) (d : Domains V) (a : Assignment V)
    (st : Option Nat × List (V × Nat)) (var : V) : Option Nat × List (V × Nat) :=
  if (a var).isSome then st
  else
    match st.1 with
    | none => (some (d var).length, [(var, (neighborsOf P var).length)])
    | some lo =>
      if (d var).length < lo then
        (some (d var).length, [(var, (neighborsOf P var).length)])
      else if (d var).length = lo then
        (st.1, st.2 ++ [(var, (neighborsOf P var).length)])
      else st

def selectFold (P : Puzzle V) (d : Domains V) (a : Assignment V) :
    Option Nat × List (V × Nat) :=
  P.vars.foldl (selStep P d a) (none, [])

/-- The method `select_unassigned_variable(assignment)` (generate.py lines
263-284): the first key of the order dict sorted ascending by degree.  Python
crashes if every variable is assigned; the embedding returns `none` there. -/
def select_unassigned_variable (P : Puzzle V) (d : Domains V)
    (a : Assignment V) : Option V :=
  ((sortByVal (selectFold P d a).2).map Prod.fst).head?

/-- Result of a `backtrack` call: the Python return value, plus the state of
`self.domains` and of the (shared, mutated in place) assignment dict at exit. -/
abbrev BTRes (V : Type) : Type := Option (Assignment V) × Domains V × Assignment V

/-- The `for value in self.order_domain_values(...)` loop of `backtrack`
(generate.py lines 302-322), with `bk` the recursive call at the next depth.
`assignment[var] = value` and `assignment.pop(var)` become function updates to
`some w` and back to `none`. -/
def btLoop (P : Puzzle V) (bk : Domains V → Assignment V → BTRes V) (var : V) :
    List Word → Domains V → Assignment V → BTRes V
  | [], d, a => (none, d, a)
  | w :: ws, d, a =>
    if consistentA P (Function.update a var (some w)) then
      if (ac3 P d).1 then
        match bk (ac3 P d).2 (Function.update a var (some w)) with
        | (some sol, d2, a2) => (some sol, d2, a2)
        | (none, d2, a2) => btLoop P bk var ws d2 (Function.update a2 var none)
      else
        btLoop P bk var ws (ac3 P d).2
          (Function.update (Function.update a var (some w)) var none)
    else
      btLoop P bk var ws d
        (Function.update (Function.update a var (some w)) var none)

/-- The method `backtrack(assignment)` (generate.py lines 286-322), indexed by
recursion fuel: each recursive call assigns one more variable, so any fuel
larger than the number of variables reproduces the Python recursion. -/
def backtrackF (P : Puzzle V) : Nat → Domains V → Assignment V → BTRes V
  | 0, d, a => (none, d, a)
  | fuel + 1, d, a =>
    if assignment_complete P a then (some a, d, a)
    else
      match select_unassigned_variable P d a with
      | none => (none, d, a)
      | some var => btLoop P (backtrackF P fuel) var (order_domain_values P d a var) d a

/-- The initial domain store of `CrosswordCreator.__init__` (generate.py lines
14-17): every variable starts with the full word list. -/
def initDomains (words : List Word) : Domains V := fun _ => words

/-- The method `solve()` (generate.py lines 89-95): node consistency, then
`ac3()` (its Boolean result is ignored, as in the source), then backtracking
from the empty assignment. -/
def solve (P : Puzzle V) (words : List Word) : Option (Assignment V) :=
  (backtrackF P (P.vars.length + 1)
    (ac3 P (enforce_node_consistency P (initDomains words))).2
    (fun _ => none)).1

/-! Equation lemmas for the AC-3 worklist loop. -/

lemma ac3Loop_nil (P : Puzzle V) (d : Domains V) : ac3Loop P [] d = (true, d) := by
  rw [ac3Loop]

lemma ac3Loop_cons_noRevise {P : Puzzle V} {d : Domains V} {x y : V}
    (rest : List (V × V)) (h : (revise P d x y).1 = false) :
    ac3Loop P ((x, y) :: rest) d = ac3Loop P rest d := by
  rw [ac3Loop]
  simp only [h, Bool.false_eq_true, dite_false]
  rw [revise_fst_false h]

lemma ac3Loop_cons_emptied {P : Puzzle V} {d : Domains V} {x y : V}
    (rest : List (V × V)) (h1 : (revise P d x y).1 = true)
    (h2 : ((revise P d x y).2 x).isEmpty) :
    ac3Loop P ((x, y) :: rest) d = (false, (revise P d x y).2) := by
  rw [ac3Loop]
  simp only [h1, dite_true, h2, if_true]

lemma ac3Loop_cons_shrunk {P : Puzzle V} {d : Domains V} {x y : V}
    (rest : List (V × V)) (h1 : (revise P d x y).1 = true)
    (h2 : ¬ ((revise P d x y).2 x).isEmpty) :
    ac3Loop P ((x, y) :: rest) d
      = ac3Loop P (rest ++ (neighborsOf P x).map (fun n => (n, x)))
          (revise P d x y).2 := by
  rw [ac3Loop]
  simp [h1, h2]

/-! Node consistency (claim C7). -/

omit [Fintype V] in
lemma filter_not_mem_filter {α : Type} [DecidableEq α] (l : List α) (q : α → Bool) :
    l.filter (fun w => decide (w ∉ l.filter q)) = l.filter (fun w => !(q w)) := by
  apply List.filter_congr
  intro w hw
  by_cases hq : q w
  · simp [List.mem_filter, hw, hq]
  · have hq2 : q w = false := by simpa using hq
    simp [List.mem_filter, hq2]

omit [Fintype V] in
lemma enc_step_filter (P : Puzzle V) (var : V) (l : List Word) :
    l.filter (fun w =>
        decide (w ∉ l.filter (fun w => decide (P.length var ≠ w.length))))
      = l.filter (fun w => decide (P.length var = w.length)) := by
  apply List.filter_congr
  intro w hw
  by_cases h : P.length var = w.length
  · simp [List.mem_filter, hw, h]
  · simp [List.mem_filter, hw, h]

omit [Fintype V] in
lemma encStep_apply (P : Puzzle V) (d : Domains V) (var v : V) :
    encStep P d var v
      = if v = var then (d var).filter (fun w => decide (P.length var = w.length))
        else d v := by
  unfold encStep
  by_cases h : v = var
  · subst h
    simp only [if_true, Function.update_same]
    exact enc_step_filter P v (d v)
  · simp only [h, if_false]
    exact Function.update_noteq h _ d

omit [Fintype V] in
lemma encFold_apply (P : Puzzle V) :
    ∀ (l : List V) (d : Domains V) (v : V),
      (l.foldl (encStep P) d) v
      = if v ∈ l then (d v).filter (fun w => decide (P.length v = w.length)) else d v := by
  intro l
  induction l with
  | nil => intro d v; simp
  | cons var rest ih =>
    intro d v
    rw [List.foldl_cons, ih]
    by_cases hv : v = var
    · subst hv
      by_cases hr : v ∈ rest
      · simp [hr, encStep_apply, List.filter_filter]
      · simp [hr, encStep_apply]
    · by_cases hr : v ∈ rest
      · simp [hr, encStep_apply, hv, List.mem_cons]
      · simp [hr, encStep_apply, hv, List.mem_cons]

lemma enforce_apply (P : Puzzle V) (d : Domains V) (v : V) :
    enforce_node_consistency P d v
      = if v ∈ P.vars then (d v).filter (fun w => decide (P.length v = w.length))
        else d v := by
  unfold enforce_node_consistency
  exact encFold_apply P P.vars d v

/-- C7: after `enforce_node_consistency`, the domain of every puzzle variable
is exactly its old domain filtered to the words whose length equals the
variable's length (hence every remaining word has the variable's length), and
the store is otherwise untouched — the function's only effect is this
filtering. -/
theorem spec_C7_enforce_node_consistency (P : Puzzle V) (d : Domains V) :
    (∀ v ∈ P.vars, enforce_node_consistency P d v
        = (d v).filter (fun w => decide (P.length v = w.length)))
    ∧ (∀ v ∈ P.vars, ∀ w ∈ enforce_node_consistency P d v, w.length = P.length v)
    ∧ (∀ v, v ∉ P.vars → enforce_node_consistency P d v = d v) := by
  refine ⟨fun v hv => ?_, fun v hv w hw => ?_, fun v hv => ?_⟩
  · rw [enforce_apply, if_pos hv]
  · rw [enforce_apply, if_pos hv] at hw
    have := (List.mem_filter.mp hw).2
    simp at this
    omega
  · rw [enforce_apply, if_neg hv]

/-! Arc revision (claim C5). -/

omit [Fintype V] in
lemma chk_iff (dy : List Word) (i j : Nat) (word : Word) :
    chk dy i j word = true ↔ ∃ w ∈ dy, word.get? i = w.get? j := by
  unfold chk
  simp [List.any_eq_true]

/-- C5: `revise(x, y)` removes from `domain(x)` exactly the words with no
agreeing partner in `domain(y)` at the overlap positions, touches no other
domain, returns `false` immediately when `x` and `y` do not overlap, and
returns `true` iff `domain(x)` actually lost at least one word. -/
theorem spec_C5_revise (P : Puzzle V) (d : Domains V) (x y : V) :
    (P.overlaps x y = none → revise P d x y = (false, d))
    ∧ (∀ i j, P.overlaps x y = some (i, j) →
        (∀ w, w ∈ (revise P d x y).2 x
            ↔ (w ∈ d x ∧ ∃ w2 ∈ d y, w.get? i = w2.get? j))
        ∧ (∀ v, v ≠ x → (revise P d x y).2 v = d v)
        ∧ ((revise P d x y).1 = true ↔ ∃ w ∈ d x, w ∉ (revise P d x y).2 x)) := by
  constructor
  · intro hov
    unfold revise
    rw [hov]
  · intro i j hov
    rw [revise_of_overlap hov]
    by_cases he : ((d x).filter (fun w => !(chk (d y) i j w))).isEmpty
    · have hall : ∀ w ∈ d x, chk (d y) i j w = true := by
        intro w hw
        have := List.isEmpty_iff.mp he
        have h2 := List.filter_eq_nil_iff.mp this w hw
        simpa using h2
      rw [if_pos he]
      refine ⟨fun w => ?_, fun v _ => rfl, ?_⟩
      · constructor
        · intro hw
          exact ⟨hw, (chk_iff (d y) i j w).mp (hall w hw)⟩
        · exact fun h => h.1
      · simp
    · rw [if_neg he]
      have hmem : ∀ w, w ∈ Function.update d x
            ((d x).filter (fun w =>
              decide (w ∉ (d x).filter (fun w => !(chk (d y) i j w))))) x
          ↔ (w ∈ d x ∧ ∃ w2 ∈ d y, w.get? i = w2.get? j) := by
        intro w
        rw [Function.update_same]
        rw [List.mem_filter]
        constructor
        · rintro ⟨hw, hnot⟩
          refine ⟨hw, ?_⟩
          rw [← chk_iff]
          by_contra hc
          have hc2 : chk (d y) i j w = false := by
            cases h : chk (d y) i j w
            · rfl
            · exact absurd h hc
          have : w ∈ (d x).filter (fun w => !(chk (d y) i j w)) := by
            rw [List.mem_filter]
            exact ⟨hw, by simp [hc2]⟩
          simp [this] at hnot
        · rintro ⟨hw, hsup⟩
          refine ⟨hw, ?_⟩
          have hc : chk (d y) i j w = true := (chk_iff (d y) i j w).mpr hsup
          simp [List.mem_filter, hc]
      refine ⟨hmem, fun v hv => Function.update_noteq hv _ d, ?_⟩
      constructor
      · intro _
        have hne : ((d x).filter (fun w => !(chk (d y) i j w))) ≠ [] := by
          simpa [List.isEmpty_iff] using he
        obtain ⟨w0, hw0⟩ := List.exists_mem_of_ne_nil _ hne
        have hw0x : w0 ∈ d x := (List.mem_filter.mp hw0).1
        have hw0c : chk (d y) i j w0 = false := by
          have := (List.mem_filter.mp hw0).2
          simpa using this
        refine ⟨w0, hw0x, ?_⟩
        rw [hmem w0]
        rintro ⟨-, hsup⟩
        rw [← chk_iff] at hsup
        rw [hw0c] at hsup
        cases hsup
      · intro _
        rfl

/-! Arc consistency as a property of the domain store, and the behaviour of
`ac3` on an already arc-consistent store (claim C8, first half). -/

omit [Fintype V] in
lemma revise_snd_other (P : Puzzle V) (d : Domains V) (x y v : V) (hv : v ≠ x) :
    (revise P d x y).2 v = d v := by
  cases hov : P.overlaps x y with
  | none => unfold revise; rw [hov]
  | some p =>
    obtain ⟨i, j⟩ := p
    rw [revise_of_overlap hov]
    by_cases he : ((d x).filter (fun w => !(chk (d y) i j w))).isEmpty
    · rw [if_pos he]
    · rw [if_neg he]
      exact Function.update_noteq hv _ d

omit [Fintype V] in
lemma revise_mem_x {P : Puzzle V} {d : Domains V} {x y : V} {i j : Nat}
    (hov : P.overlaps x y = some (i, j)) (w : Word) :
    w ∈ (revise P d x y).2 x ↔ (w ∈ d x ∧ ∃ w2 ∈ d y, w.get? i = w2.get? j) := by
  rw [revise_of_overlap hov]
  by_cases he : ((d x).filter (fun w => !(chk (d y) i j w))).isEmpty
  · rw [if_pos he]
    have hall : ∀ w ∈ d x, chk (d y) i j w = true := by
      intro w hw
      have h2 := List.filter_eq_nil_iff.mp (List.isEmpty_iff.mp he) w hw
      simpa using h2
    exact ⟨fun hw => ⟨hw, (chk_iff (d y) i j w).mp (hall w hw)⟩, fun h => h.1⟩
  · rw [if_neg he]
    dsimp only
    rw [Function.update_same, List.mem_filter]
    constructor
    · rintro ⟨hw, hnot⟩
      refine ⟨hw, ?_⟩
      rw [← chk_iff]
      by_contra hc
      have hc2 : chk (d y) i j w = false := by
        cases h : chk (d y) i j w
        · rfl
        · exact absurd h hc
      have : w ∈ (d x).filter (fun w => !(chk (d y) i j w)) := by
        rw [List.mem_filter]
        exact ⟨hw, by simp [hc2]⟩
      simp [this] at hnot
    · rintro ⟨hw, hsup⟩
      have hc : chk (d y) i j w = true := (chk_iff (d y) i j w).mpr hsup
      exact ⟨hw, by simp [List.mem_filter, hc]⟩

omit [Fintype V] in
lemma revise_sub_x (P : Puzzle V) (d : Domains V) (x y : V) (w : Word)
    (hw : w ∈ (revise P d x y).2 x) : w ∈ d x := by
  cases hov : P.overlaps x y with
  | none =>
    unfold revise at hw; rw [hov] at hw; exact hw
  | some p =>
    obtain ⟨i, j⟩ := p
    exact ((revise_mem_x hov w).mp hw).1

/-- The claim's "already arc-consistent" property: every word of every
variable's domain agrees with some word of each neighbor's domain at the
overlap positions. -/
def ArcConsistent (P : Puzzle V) (d : Domains V) : Prop :=
  ∀ x ∈ P.vars, ∀ y ∈ P.vars, x ≠ y → ∀ i j, P.overlaps x y = some (i, j) →
    ∀ w ∈ d x, ∃ w2 ∈ d y, w.get? i = w2.get? j

omit [Fintype V] in
lemma revise_noop_of_AC {P : Puzzle V} {d : Domains V} (hAC : ArcConsistent P d)
    {x y : V} (hx : x ∈ P.vars) (hy : y ∈ P.vars) (hxy : x ≠ y) :
    revise P d x y = (false, d) := by
  cases hov : P.overlaps x y with
  | none => unfold revise; rw [hov]
  | some p =>
    obtain ⟨i, j⟩ := p
    rw [revise_of_overlap hov]
    have hall := hAC x hx y hy hxy i j hov
    have hnil : (d x).filter (fun w => !(chk (d y) i j w)) = [] := by
      rw [List.filter_eq_nil_iff]
      intro w hw
      have := (chk_iff (d y) i j w).mpr (hall w hw)
      simp [this]
    rw [if_pos (by rw [hnil]; rfl)]

/-- All pairs a worklist may contain: ordered pairs of distinct puzzle
variables (true of the initial worklist and preserved by re-enqueuing). -/
def QueueOK (P : Puzzle V) (q : List (V × V)) : Prop :=
  ∀ p ∈ q, p.1 ∈ P.vars ∧ p.2 ∈ P.vars ∧ p.1 ≠ p.2

lemma ac3Loop_noop {P : Puzzle V} {d : Domains V} (hAC : ArcConsistent P d) :
    ∀ q : List (V × V), QueueOK P q → ac3Loop P q d = (true, d) := by
  intro q
  induction q with
  | nil => intro _; exact ac3Loop_nil P d
  | cons p rest ih =>
    obtain ⟨x, y⟩ := p
    intro hq
    obtain ⟨hx, hy, hxy⟩ := hq (x, y) (List.mem_cons_self _ _)
    have hrev : revise P d x y = (false, d) := revise_noop_of_AC hAC hx hy hxy
    rw [ac3Loop_cons_noRevise rest (by rw [hrev])]
    exact ih (fun p hp => hq p (List.mem_cons_of_mem _ hp))

omit [Fintype V] in
lemma initQueue_mem (vs : List V) (x y : V) :
    (x, y) ∈ initQueue vs ↔ x ∈ vs ∧ y ∈ vs ∧ x ≠ y := by
  unfold initQueue
  constructor
  · intro h
    rw [List.mem_flatMap] at h
    obtain ⟨a, ha, hmem⟩ := h
    rw [List.mem_map] at hmem
    obtain ⟨b, hb, heq⟩ := hmem
    obtain ⟨hb1, hb2⟩ := List.mem_filter.mp hb
    cases heq
    exact ⟨ha, hb1, by simpa using hb2⟩
  · rintro ⟨hx, hy, hxy⟩
    rw [List.mem_flatMap]
    exact ⟨x, hx, List.mem_map.mpr ⟨y, List.mem_filter.mpr ⟨hy, by simpa using hxy⟩, rfl⟩⟩

lemma initQueue_ok (P : Puzzle V) : QueueOK P (initQueue P.vars) := by
  rintro ⟨x, y⟩ hp
  exact (initQueue_mem P.vars x y).mp hp

lemma ac3_noop {P : Puzzle V} {d : Domains V} (hAC : ArcConsistent P d) :
    ac3 P d = (true, d) :=
  ac3Loop_noop hAC _ (initQueue_ok P)

/-! Completeness of AC-3: a run that returns true leaves an arc-consistent
store (claim C8, second half). -/

/-- Modelled from the spec: the overlap map of the Puzzle Model is symmetric
(`overlap(x, y)` and `overlap(y, x)` reference the same shared cell). -/
def SymmOverlap (P : Puzzle V) : Prop :=
  ∀ x y : V, (P.overlaps x y).isSome → (P.overlaps y x).isSome

/-- Run invariant of the AC-3 worklist: every overlapping ordered pair of
distinct puzzle variables is either still on the worklist or currently
arc-consistent. -/
def InvQ (P : Puzzle V) (q : List (V × V)) (d : Domains V) : Prop :=
  ∀ x ∈ P.vars, ∀ y ∈ P.vars, x ≠ y → ∀ i j, P.overlaps x y = some (i, j) →
    ((x, y) ∈ q ∨ ∀ w ∈ d x, ∃ w2 ∈ d y, w.get? i = w2.get? j)

omit [Fintype V] in
lemma revise_fst_true_overlap {P : Puzzle V} {d : Domains V} {x y : V}
    (h : (revise P d x y).1 = true) : ∃ i j, P.overlaps x y = some (i, j) := by
  cases hov : P.overlaps x y with
  | none => unfold revise at h; rw [hov] at h; simp at h
  | some p =>
    obtain ⟨i, j⟩ := p
    exact ⟨i, j, rfl⟩

omit [Fintype V] in
lemma revise_false_supported {P : Puzzle V} {d : Domains V} {x y : V} {i j : Nat}
    (h : (revise P d x y).1 = false) (hov : P.overlaps x y = some (i, j)) :
    ∀ w ∈ d x, ∃ w2 ∈ d y, w.get? i = w2.get? j := by
  intro w hw
  have hw2 : w ∈ (revise P d x y).2 x := by rw [revise_fst_false h]; exact hw
  exact ((revise_mem_x hov w).mp hw2).2

lemma ac3Loop_complete {P : Puzzle V} (hS : SymmOverlap P) :
    ∀ n (q : List (V × V)) (d d' : Domains V), sumSize d ≤ n → QueueOK P q →
      InvQ P q d → ac3Loop P q d = (true, d') → ArcConsistent P d' := by
  intro n
  induction n using Nat.strong_induction_on with
  | _ n ihn =>
    intro q
    induction q with
    | nil =>
      intro d d' _ _ hinv hrun
      rw [ac3Loop_nil] at hrun
      injection hrun with _ h2
      subst h2
      intro x hx y hy hxy i j hov
      rcases hinv x hx y hy hxy i j hov with hmem | hsup
      · cases hmem
      · exact hsup
    | cons p rest ihq =>
      obtain ⟨x, y⟩ := p
      intro d d' hb hq hinv hrun
      have hqrest : QueueOK P rest := fun p hp => hq p (List.mem_cons_of_mem _ hp)
      obtain ⟨hx, hy, hxy⟩ := hq (x, y) (List.mem_cons_self _ _)
      by_cases h1 : (revise P d x y).1
      · by_cases h2 : ((revise P d x y).2 x).isEmpty
        · rw [ac3Loop_cons_emptied rest h1 h2] at hrun
          exact absurd (congrArg Prod.fst hrun) (by simp)
        · rw [ac3Loop_cons_shrunk rest h1 h2] at hrun
          obtain ⟨i0, j0, hov0⟩ := revise_fst_true_overlap h1
          set d1 := (revise P d x y).2 with hd1
          -- the appended arcs and the new worklist
          have hqnew : QueueOK P (rest ++ (neighborsOf P x).map (fun n => (n, x))) := by
            intro p hp
            rcases List.mem_append.mp hp with hp | hp
            · exact hqrest p hp
            · obtain ⟨nb, hnb, rfl⟩ := List.mem_map.mp hp
              obtain ⟨hnb1, hnb2⟩ := List.mem_filter.mp hnb
              refine ⟨hnb1, hx, ?_⟩
              have := of_decide_eq_true hnb2
              exact this.1
          have hinvnew : InvQ P (rest ++ (neighborsOf P x).map (fun n => (n, x))) d1 := by
            intro u hu v hv huv i j hov
            rcases hinv u hu v hv huv i j hov with hmem | hsup
            · rcases List.mem_cons.mp hmem with heq | hmem
              · -- the pair just processed: now consistent in d1
                have hux : u = x := congrArg Prod.fst heq
                have hvy : v = y := congrArg Prod.snd heq
                have hxy2 : x ≠ y := by rw [← hux, ← hvy]; exact huv
                right
                rw [hux, hvy] at hov ⊢
                intro w hw
                obtain ⟨-, w2, hw2, heq2⟩ := (revise_mem_x hov w).mp hw
                refine ⟨w2, ?_, heq2⟩
                have h3 : d1 y = d y := revise_snd_other P d x y y (Ne.symm hxy2)
                rw [h3]
                exact hw2
              · exact Or.inl (List.mem_append_left _ hmem)
            · by_cases hvx : v = x
              · -- shrunk target: re-enqueued as (u, x)
                left
                apply List.mem_append_right
                apply List.mem_map.mpr
                refine ⟨u, ?_, by rw [hvx]⟩
                apply List.mem_filter.mpr
                refine ⟨hu, ?_⟩
                have hs : (P.overlaps x u).isSome := by
                  apply hS u x
                  rw [← hvx, hov]
                  rfl
                have hux2 : u ≠ x := by rw [← hvx]; exact huv
                simp [hux2, hs]
              · right
                intro w hw
                have hwv : d1 v = d v := revise_snd_other P d x y v hvx
                by_cases hux : u = x
                · obtain ⟨w2, hw2, heq2⟩ := hsup w (by
                    rw [hux] at hw ⊢
                    exact revise_sub_x P d x y w hw)
                  exact ⟨w2, by rw [hwv]; exact hw2, heq2⟩
                · have hwu : d1 u = d u := revise_snd_other P d x y u hux
                  rw [hwu] at hw
                  obtain ⟨w2, hw2, heq2⟩ := hsup w hw
                  exact ⟨w2, by rw [hwv]; exact hw2, heq2⟩
          exact ihn (sumSize d1)
            (Nat.lt_of_lt_of_le (revise_fst_true_sumSize h1) hb) _ _ _
            le_rfl hqnew hinvnew hrun
      · have h1f : (revise P d x y).1 = false := by simpa using h1
        rw [ac3Loop_cons_noRevise rest h1f] at hrun
        have hinvrest : InvQ P rest d := by
          intro u hu v hv huv i j hov
          rcases hinv u hu v hv huv i j hov with hmem | hsup
          · rcases List.mem_cons.mp hmem with heq | hmem
            · have hux : u = x := congrArg Prod.fst heq
              have hvy : v = y := congrArg Prod.snd heq
              right
              rw [hux, hvy] at hov ⊢
              exact revise_false_supported h1f hov
            · exact Or.inl hmem
          · exact Or.inr hsup
        exact ihq d d' hb hqrest hinvrest hrun

lemma initQueue_inv (P : Puzzle V) (d : Domains V) : InvQ P (initQueue P.vars) d :=
  fun x hx y hy hxy _ _ _ => Or.inl ((initQueue_mem P.vars x y).mpr ⟨hx, hy, hxy⟩)

lemma ac3_complete {P : Puzzle V} {d d' : Domains V} (hS : SymmOverlap P)
    (h : ac3 P d = (true, d')) : ArcConsistent P d' :=
  ac3Loop_complete hS (sumSize d) _ _ _ le_rfl (initQueue_ok P) (initQueue_inv P d) h

/-- C8: on an already arc-consistent store `ac3()` changes no domain and
returns true; and since a successful run always leaves an arc-consistent
store, running `ac3` a second time after a successful run is a no-op. -/
theorem spec_C8_ac3_fixed_point (P : Puzzle V) (d : Domains V)
    (hS : SymmOverlap P) :
    (ArcConsistent P d → ac3 P d = (true, d))
    ∧ (∀ d', ac3 P d = (true, d') → ac3 P d' = (true, d')) := by
  constructor
  · exact fun hAC => ac3_noop hAC
  · intro d' hrun
    exact ac3_noop (ac3_complete hS hrun)

/-! Behaviour of `ac3` with respect to empty domains (claim C4). -/

lemma ac3Loop_false_empty {P : Puzzle V} :
    ∀ n (q : List (V × V)) (d d' : Domains V), sumSize d ≤ n →
      ac3Loop P q d = (false, d') → ∃ v, d' v = [] := by
  intro n
  induction n using Nat.strong_induction_on with
  | _ n ihn =>
    intro q
    induction q with
    | nil =>
      intro d d' _ hrun
      rw [ac3Loop_nil] at hrun
      exact absurd (congrArg Prod.fst hrun) (by simp)
    | cons p rest ihq =>
      obtain ⟨x, y⟩ := p
      intro d d' hb hrun
      by_cases h1 : (revise P d x y).1
      · by_cases h2 : ((revise P d x y).2 x).isEmpty
        · rw [ac3Loop_cons_emptied rest h1 h2] at hrun
          injection hrun with _ hd
          subst hd
          exact ⟨x, List.isEmpty_iff.mp h2⟩
        · rw [ac3Loop_cons_shrunk rest h1 h2] at hrun
          exact ihn (sumSize (revise P d x y).2)
            (Nat.lt_of_lt_of_le (revise_fst_true_sumSize h1) hb) _ _ _ le_rfl hrun
      · have h1f : (revise P d x y).1 = false := by simpa using h1
        rw [ac3Loop_cons_noRevise rest h1f] at hrun
        exact ihq d d' hb hrun

lemma ac3Loop_true_nonempty {P : Puzzle V} :
    ∀ n (q : List (V × V)) (d d' : Domains V), sumSize d ≤ n →
      (∀ v : V, d v ≠ []) → ac3Loop P q d = (true, d') → ∀ v : V, d' v ≠ [] := by
  intro n
  induction n using Nat.strong_induction_on with
  | _ n ihn =>
    intro q
    induction q with
    | nil =>
      intro d d' _ hne hrun
      rw [ac3Loop_nil] at hrun
      injection hrun with _ hd
      subst hd
      exact hne
    | cons p rest ihq =>
      obtain ⟨x, y⟩ := p
      intro d d' hb hne hrun
      by_cases h1 : (revise P d x y).1
      · by_cases h2 : ((revise P d x y).2 x).isEmpty
        · rw [ac3Loop_cons_emptied rest h1 h2] at hrun
          exact absurd (congrArg Prod.fst hrun) (by simp)
        · rw [ac3Loop_cons_shrunk rest h1 h2] at hrun
          have hne1 : ∀ v : V, (revise P d x y).2 v ≠ [] := by
            intro v
            by_cases hvx : v = x
            · subst hvx
              intro hc
              rw [hc] at h2
              exact h2 rfl
            · rw [revise_snd_other P d x y v hvx]
              exact hne v
          exact ihn (sumSize (revise P d x y).2)
            (Nat.lt_of_lt_of_le (revise_fst_true_sumSize h1) hb) _ _ _ le_rfl hne1 hrun
      · have h1f : (revise P d x y).1 = false := by simpa using h1
        rw [ac3Loop_cons_noRevise rest h1f] at hrun
        exact ihq d d' hb hne hrun

/-- C4 amended: a false return of `ac3` does imply an empty domain at the end,
and when every domain is non-empty at entry a true return guarantees every
domain is non-empty at the end; but a domain that is already empty at entry
and is never revised can survive a run that returns true (see the
counterexample), so the claim's direction "empty domain at the end implies a
false return" does not hold unconditionally. -/
theorem spec_C4_ac3_amended (P : Puzzle V) (d : Domains V) :
    (∀ d', ac3 P d = (false, d') → ∃ v, d' v = [])
    ∧ ((∀ v : V, d v ≠ []) → ∀ d', ac3 P d = (true, d') → ∀ v : V, d' v ≠ []) :=
  ⟨fun d' h => ac3Loop_false_empty (sumSize d) _ _ _ le_rfl h,
   fun hne d' h => ac3Loop_true_nonempty (sumSize d) _ _ _ le_rfl hne h⟩

/-! Concrete instances used for counterexamples and witnesses. -/

/-- A one-variable puzzle of length 3 with no overlaps. -/
def exP1 : Puzzle (Fin 1) where
  vars := [0]
  length := fun _ => 3
  overlaps := fun _ _ => none

/-- The empty domain store over one variable. -/
def exEmptyD : Domains (Fin 1) := fun _ => []

/-- C4 counterexample: with a single variable whose domain is already empty,
the worklist holds no pair at all, so `ac3()` returns true although a domain
is empty at the end of the run — refuting "whenever some variable's domain is
empty at the end of an ac3 run, ac3 returns false". -/
theorem spec_C4_counterexample :
    ac3 exP1 exEmptyD = (true, exEmptyD) ∧ exEmptyD 0 = [] := by
  constructor
  · show ac3Loop exP1 (initQueue exP1.vars) exEmptyD = (true, exEmptyD)
    have h : initQueue exP1.vars = ([] : List (Fin 1 × Fin 1)) := rfl
    rw [h, ac3Loop_nil]
  · rfl

/-! The arcs re-enqueued by `ac3` after a successful revision (claim C6). -/

/-- C6 amended: when a processed arc `(x, y)` leads `revise` to shrink
`domain(x)` without emptying it, the arcs appended to the worklist are exactly
the pairs `(neighbor, x)` for every neighbor of `x` — including `y` itself,
which the source does not exclude. -/
theorem spec_C6_ac3_enqueues_all_neighbors (P : Puzzle V) (rest : List (V × V))
    (d : Domains V) (x y : V) (h1 : (revise P d x y).1 = true)
    (h2 : (revise P d x y).2 x ≠ []) :
    ac3Loop P ((x, y) :: rest) d
      = ac3Loop P (rest ++ (neighborsOf P x).map (fun n => (n, x)))
          (revise P d x y).2
    ∧ (y ∈ P.vars → y ≠ x → (y, x) ∈ (neighborsOf P x).map (fun n => (n, x))) := by
  constructor
  · exact ac3Loop_cons_shrunk rest h1 (by simpa [List.isEmpty_iff] using h2)
  · intro hy hyx
    apply List.mem_map.mpr
    refine ⟨y, ?_, rfl⟩
    apply List.mem_filter.mpr
    refine ⟨hy, ?_⟩
    obtain ⟨i, j, hov⟩ := revise_fst_true_overlap h1
    simp [hyx, hov]

/-- A two-variable puzzle whose variables cross at their first characters. -/
def exP2 : Puzzle (Fin 2) where
  vars := [0, 1]
  length := fun _ => 2
  overlaps := fun x y => if x ≠ y then some (0, 0) else none

/-- Domains for the C6 counterexample: variable 0 has one supported and one
unsupported word, variable 1 a single word. -/
def exD6 : Domains (Fin 2) := fun v =>
  if v = 0 then [['a', 'b'], ['b', 'b']] else [['b', 'c']]

/-- C6 counterexample: processing the arc `(0, 1)` shrinks `domain(0)` without
emptying it, and the arcs the code then appends include `(1, 0)` — that is,
the pair for the neighbor `y = 1` itself — so they are not "exactly the pairs
`(neighbor, x)` for every neighbor of `x` other than `y`". -/
theorem spec_C6_counterexample :
    (revise exP2 exD6 0 1).1 = true
    ∧ (revise exP2 exD6 0 1).2 0 = [['b', 'b']]
    ∧ ac3Loop exP2 [(0, 1)] exD6
        = ac3Loop exP2 ((neighborsOf exP2 0).map (fun n => (n, 0)))
            (revise exP2 exD6 0 1).2
    ∧ ((1 : Fin 2), (0 : Fin 2)) ∈ (neighborsOf exP2 0).map (fun n => (n, 0))
    ∧ (neighborsOf exP2 0).map (fun n => (n, 0))
        ≠ ((neighborsOf exP2 0).filter (fun n => n ≠ 1)).map (fun n => (n, 0)) := by
  refine ⟨rfl, rfl, ?_, by decide, by decide⟩
  have h := ac3Loop_cons_shrunk (P := exP2) (d := exD6) (x := 0) (y := 1) [] rfl
    (by decide)
  simpa using h

/-! Equation lemmas for the backtracking search. -/

lemma backtrackF_complete {P : Puzzle V} {d : Domains V} {a : Assignment V}
    (fuel : Nat) (h : assignment_complete P a = true) :
    backtrackF P (fuel + 1) d a = (some a, d, a) := by
  rw [backtrackF]
  rw [if_pos h]

lemma backtrackF_step {P : Puzzle V} {d : Domains V} {a : Assignment V} {var : V}
    (fuel : Nat) (h1 : assignment_complete P a = false)
    (h2 : select_unassigned_variable P d a = some var) :
    backtrackF P (fuel + 1) d a
      = btLoop P (backtrackF P fuel) var (order_domain_values P d a var) d a := by
  rw [backtrackF]
  rw [h1]
  rw [if_neg Bool.false_ne_true]
  rw [h2]

lemma btLoop_cons_inconsistent {P : Puzzle V} {bk : Domains V → Assignment V → BTRes V}
    {var : V} {w : Word} {ws : List Word} {d : Domains V} {a : Assignment V}
    (hc : consistentA P (Function.update a var (some w)) = false) :
    btLoop P bk var (w :: ws) d a
      = btLoop P bk var ws d
          (Function.update (Function.update a var (some w)) var none) := by
  rw [btLoop, hc]
  rw [if_neg Bool.false_ne_true]

lemma btLoop_cons_ac3fail {P : Puzzle V} {bk : Domains V → Assignment V → BTRes V}
    {var : V} {w : Word} {ws : List Word} {d : Domains V} {a : Assignment V}
    (hc : consistentA P (Function.update a var (some w)) = true)
    (hf : (ac3 P d).1 = false) :
    btLoop P bk var (w :: ws) d a
      = btLoop P bk var ws (ac3 P d).2
          (Function.update (Function.update a var (some w)) var none) := by
  rw [btLoop, hc, if_pos rfl, hf]
  rw [if_neg Bool.false_ne_true]

lemma btLoop_cons_recurse {P : Puzzle V} {bk : Domains V → Assignment V → BTRes V}
    {var : V} {w : Word} {ws : List Word} {d : Domains V} {a : Assignment V}
    (hc : consistentA P (Function.update a var (some w)) = true)
    (hf : (ac3 P d).1 = true) :
    btLoop P bk var (w :: ws) d a
      = (match bk (ac3 P d).2 (Function.update a var (some w)) with
         | (some sol, d2, a2) => (some sol, d2, a2)
         | (none, d2, a2) => btLoop P bk var ws d2 (Function.update a2 var none)) := by
  rw [btLoop, hc, if_pos rfl, hf, if_pos rfl]

/-! Domain preservation under an arc-consistent entry store (claim C2,
amended), and restoration of the assignment on failure (claim C9). -/

lemma btLoop_preserves_dom {P : Puzzle V}
    {bk : Domains V → Assignment V → BTRes V}
    (hbk : ∀ (d : Domains V) (a : Assignment V),
      ArcConsistent P d → (bk d a).2.1 = d) (var : V) :
    ∀ (vs : List Word) (d : Domains V) (a : Assignment V),
      ArcConsistent P d → (btLoop P bk var vs d a).2.1 = d := by
  intro vs
  induction vs with
  | nil => intro d a _; rfl
  | cons w ws ih =>
    intro d a hAC
    by_cases hc : consistentA P (Function.update a var (some w))
    · have hr : ac3 P d = (true, d) := ac3_noop hAC
      rw [btLoop_cons_recurse hc (by rw [hr])]
      have hr2 : (ac3 P d).2 = d := by rw [hr]
      rcases hbk2 : bk (ac3 P d).2 (Function.update a var (some w)) with ⟨res, d2, a2⟩
      have hd2 : d2 = d := by
        have := hbk (ac3 P d).2 (Function.update a var (some w)) (by rw [hr2]; exact hAC)
        rw [hbk2] at this
        rw [← hr2]
        exact this
      cases res with
      | some sol => exact hd2
      | none =>
        show (btLoop P bk var ws d2 (Function.update a2 var none)).2.1 = d
        rw [ih d2 (Function.update a2 var none) (by rw [hd2]; exact hAC)]
        exact hd2
    · have hcf : consistentA P (Function.update a var (some w)) = false := by
        simpa using hc
      rw [btLoop_cons_inconsistent hcf]
      exact ih d _ hAC

lemma backtrackF_preserves_dom {P : Puzzle V} :
    ∀ (fuel : Nat) (d : Domains V) (a : Assignment V),
      ArcConsistent P d → (backtrackF P fuel d a).2.1 = d := by
  intro fuel
  induction fuel with
  | zero => intro d a _; rfl
  | succ fuel ih =>
    intro d a hAC
    by_cases hcomp : assignment_complete P a = true
    · rw [backtrackF_complete fuel hcomp]
    · have hcompf : assignment_complete P a = false := by simpa using hcomp
      cases hsel : select_unassigned_variable P d a with
      | none =>
        rw [backtrackF]
        rw [hcompf, if_neg Bool.false_ne_true, hsel]
      | some var =>
        rw [backtrackF_step fuel hcompf hsel]
        exact btLoop_preserves_dom (fun d a h => ih d a h) var _ d a hAC

/-- C2 amended: `backtrack` performs no restoration of the domain store — an
abandoned branch can leave domains permanently shrunk by the failed `ac3`
call (see the counterexample).  What the code does guarantee is: whenever
`backtrack` is entered on an arc-consistent store (the situation in `solve`
when the initial `ac3()` succeeded), every `ac3()` call inside the search is
a no-op on the domains, so on abandoning any branch — indeed at every exit —
the store is identical to the one from before the branch was tried. -/
theorem spec_C2_backtrack_domains_amended (P : Puzzle V) (fuel : Nat)
    (d : Domains V) (a : Assignment V) (hAC : ArcConsistent P d) :
    (backtrackF P fuel d a).2.1 = d :=
  backtrackF_preserves_dom fuel d a hAC

/-- Domains for the C2 counterexample: the store is not arc-consistent, the
only word of variable 0 has no support in the domain of variable 1. -/
def exD2 : Domains (Fin 2) := fun v => if v = 0 then [['a', 'b']] else [['b', 'c']]

/-- The empty assignment over two variables. -/
def exEmptyA2 : Assignment (Fin 2) := fun _ => none

lemma exD2_run_ac3 : ac3 exP2 exD2 = (false, (revise exP2 exD2 0 1).2) := by
  show ac3Loop exP2 (initQueue exP2.vars) exD2 = _
  have hq : initQueue exP2.vars = [((0 : Fin 2), (1 : Fin 2)), (1, 0)] := rfl
  rw [hq]
  exact ac3Loop_cons_emptied _ rfl rfl

lemma exD2_run_backtrack :
    backtrackF exP2 3 exD2 exEmptyA2
      = (none, (revise exP2 exD2 0 1).2,
         Function.update (Function.update exEmptyA2 0 (some ['a', 'b'])) 0 none) := by
  rw [show (3 : Nat) = 2 + 1 from rfl]
  have h1 : assignment_complete exP2 exEmptyA2 = false := by decide
  have h2 : select_unassigned_variable exP2 exD2 exEmptyA2 = some 0 := by decide
  rw [backtrackF_step 2 h1 h2]
  show btLoop exP2 (backtrackF exP2 2) 0 [['a', 'b']] exD2 exEmptyA2 = _
  have hc : consistentA exP2 (Function.update exEmptyA2 0 (some ['a', 'b'])) = true := by
    decide
  have hf : (ac3 exP2 exD2).1 = false := by rw [exD2_run_ac3]
  rw [btLoop_cons_ac3fail hc hf]
  rw [btLoop]
  rw [exD2_run_ac3]

/-- C2 counterexample: `backtrack` on the (not arc-consistent) store `exD2`
tries the placement `0 ↦ "ab"`, the `ac3()` call inside the branch empties
`domain(0)`, the branch is abandoned and the search fails — yet the domain
store at exit still has `domain(0) = ∅`, not its entry contents `{"ab"}`:
the abandoned branch did not restore the domain store. -/
theorem spec_C2_counterexample :
    (backtrackF exP2 3 exD2 exEmptyA2).1 = none
    ∧ (backtrackF exP2 3 exD2 exEmptyA2).2.1 0 = []
    ∧ exD2 0 = [['a', 'b']] := by
  refine ⟨?_, ?_, rfl⟩
  · rw [exD2_run_backtrack]
  · rw [exD2_run_backtrack]
    rfl

/-! The selected variable is always unassigned (needed for claim C9). -/

omit [Fintype V] in
lemma mem_insertAsc {α : Type} (p q : α × Nat) (l : List (α × Nat)) :
    q ∈ insertAsc p l ↔ q = p ∨ q ∈ l := by
  induction l with
  | nil => simp [insertAsc]
  | cons r rs ih =>
    unfold insertAsc
    by_cases h : r.2 < p.2
    · rw [if_pos h]
      rw [List.mem_cons, ih, List.mem_cons]
      tauto
    · rw [if_neg h]
      simp only [List.mem_cons]

omit [Fintype V] in
lemma mem_sortByVal {α : Type} (q : α × Nat) (l : List (α × Nat)) :
    q ∈ sortByVal l ↔ q ∈ l := by
  induction l with
  | nil => simp [sortByVal]
  | cons p ps ih =>
    unfold sortByVal
    rw [mem_insertAsc, ih, List.mem_cons]

lemma selStep_entries {P : Puzzle V} {d : Domains V} {a : Assignment V}
    {st : Option Nat × List (V × Nat)} (var : V)
    (hst : ∀ p ∈ st.2, a p.1 = none) :
    ∀ p ∈ (selStep P d a st var).2, a p.1 = none := by
  unfold selStep
  by_cases hv : (a var).isSome
  · rw [if_pos hv]
    exact hst
  · have hvn : a var = none := by
      cases h : a var
      · rfl
      · rw [h] at hv; exact absurd rfl hv
    rw [if_neg hv]
    obtain ⟨slo, sl⟩ := st
    cases slo with
    | none =>
      dsimp only
      intro q hq
      rw [List.mem_singleton] at hq
      subst hq
      exact hvn
    | some lo =>
      dsimp only
      by_cases h1 : (d var).length < lo
      · rw [if_pos h1]
        intro q hq
        rw [List.mem_singleton] at hq
        subst hq
        exact hvn
      · rw [if_neg h1]
        by_cases h2 : (d var).length = lo
        · rw [if_pos h2]
          intro q hq
          rcases List.mem_append.mp hq with hq | hq
          · exact hst q hq
          · rw [List.mem_singleton] at hq
            subst hq
            exact hvn
        · rw [if_neg h2]
          exact hst

lemma selectFold_entries (P : Puzzle V) (d : Domains V) (a : Assignment V) :
    ∀ p ∈ (selectFold P d a).2, a p.1 = none := by
  unfold selectFold
  suffices h : ∀ (l : List V) (st : Option Nat × List (V × Nat)),
      (∀ p ∈ st.2, a p.1 = none) →
      ∀ p ∈ (l.foldl (selStep P d a) st).2, a p.1 = none by
    exact h P.vars (none, []) (by intro p hp; cases hp)
  intro l
  induction l with
  | nil => intro st hst p hp; exact hst p hp
  | cons var rest ih =>
    intro st hst p hp
    rw [List.foldl_cons] at hp
    exact ih _ (selStep_entries var hst) p hp

lemma select_some_unassigned {P : Puzzle V} {d : Domains V} {a : Assignment V}
    {var : V} (h : select_unassigned_variable P d a = some var) : a var = none := by
  unfold select_unassigned_variable at h
  have hmem : var ∈ (sortByVal (selectFold P d a).2).map Prod.fst := by
    cases hl : (sortByVal (selectFold P d a).2).map Prod.fst with
    | nil => rw [hl] at h; cases h
    | cons z zs =>
      rw [hl] at h
      have hz : z = var := by
        have : (z :: zs).head? = some var := h
        injection this with h2
      rw [← hz]
      exact List.mem_cons_self _ _
  obtain ⟨q, hq, hq1⟩ := List.mem_map.mp hmem
  rw [mem_sortByVal] at hq
  have := selectFold_entries P d a q hq
  rw [hq1] at this
  exact this

/-! Restoration of the assignment dict on failure (claim C9). -/

lemma btLoop_none_asg {P : Puzzle V} {bk : Domains V → Assignment V → BTRes V}
    {var : V}
    (hbk : ∀ (d : Domains V) (a : Assignment V),
      (bk d a).1 = none → (bk d a).2.2 = a) :
    ∀ (vs : List Word) (d : Domains V) (a : Assignment V), a var = none →
      (btLoop P bk var vs d a).1 = none → (btLoop P bk var vs d a).2.2 = a := by
  intro vs
  induction vs with
  | nil => intro d a _ _; rfl
  | cons w ws ih =>
    intro d a hvar hnone
    have hpop : Function.update (Function.update a var (some w)) var none = a := by
      rw [Function.update_idem]
      rw [← hvar]
      exact Function.update_eq_self var a
    by_cases hc : consistentA P (Function.update a var (some w))
    · by_cases hf : (ac3 P d).1
      · rw [btLoop_cons_recurse hc hf] at hnone ⊢
        rcases hbk2 : bk (ac3 P d).2 (Function.update a var (some w))
          with ⟨res, d2, a2⟩
        rw [hbk2] at hnone
        cases res with
        | some sol => simp at hnone
        | none =>
          have ha2 : a2 = Function.update a var (some w) := by
            have := hbk (ac3 P d).2 (Function.update a var (some w))
              (by rw [hbk2])
            rw [hbk2] at this
            exact this
          show (btLoop P bk var ws d2 (Function.update a2 var none)).2.2 = a
          have hnone2 : (btLoop P bk var ws d2 (Function.update a2 var none)).1 = none := hnone
          have hvar2 : Function.update a2 var none var = none := Function.update_same var none a2
          rw [ih d2 (Function.update a2 var none) hvar2 hnone2]
          rw [ha2]
          exact hpop
      · have hff : (ac3 P d).1 = false := by simpa using hf
        rw [btLoop_cons_ac3fail hc hff] at hnone ⊢
        rw [ih _ _ (Function.update_same var none _) hnone]
        exact hpop
    · have hcf : consistentA P (Function.update a var (some w)) = false := by
        simpa using hc
      rw [btLoop_cons_inconsistent hcf] at hnone ⊢
      rw [ih _ _ (Function.update_same var none _) hnone]
      exact hpop

/-- C9: whenever a `backtrack` call reports failure, the assignment dict it
leaves behind is exactly the one it was entered with — every tentative
placement made anywhere inside the call has been undone. -/
theorem spec_C9_backtrack_restores_assignment (P : Puzzle V) :
    ∀ (fuel : Nat) (d : Domains V) (a : Assignment V),
      (backtrackF P fuel d a).1 = none → (backtrackF P fuel d a).2.2 = a := by
  intro fuel
  induction fuel with
  | zero => intro d a _; rfl
  | succ fuel ih =>
    intro d a hnone
    by_cases hcomp : assignment_complete P a = true
    · rw [backtrackF_complete fuel hcomp] at hnone
      cases hnone
    · have hcompf : assignment_complete P a = false := by simpa using hcomp
      cases hsel : select_unassigned_variable P d a with
      | none =>
        rw [backtrackF, hcompf, if_neg Bool.false_ne_true, hsel]
      | some var =>
        rw [backtrackF_step fuel hcompf hsel] at hnone ⊢
        exact btLoop_none_asg (fun d a h => ih d a h) _ d a
          (select_some_unassigned hsel) hnone

/-! Validity of every assignment the search returns (claim C1). -/

/-- Modelled from the spec: the overlap map stores character positions, i.e.
indices strictly below the two variables' lengths. -/
def OverlapInBounds (P : Puzzle V) : Prop :=
  ∀ x y i j, P.overlaps x y = some (i, j) → i < P.length x ∧ j < P.length y

/-- The claim's description of a valid search result: complete, length-correct,
all words pairwise distinct, and matching characters at every overlap. -/
def SolutionOK (P : Puzzle V) (r : Assignment V) : Prop :=
  (∀ v ∈ P.vars, (r v).isSome)
  ∧ (∀ v ∈ P.vars, ∀ w, r v = some w → w.length = P.length v)
  ∧ (∀ u ∈ P.vars, ∀ v ∈ P.vars, u ≠ v → ∀ wu wv,
      r u = some wu → r v = some wv → wu ≠ wv)
  ∧ (∀ u ∈ P.vars, ∀ v ∈ P.vars, u ≠ v → ∀ i j, P.overlaps u v = some (i, j) →
      ∀ wu wv, r u = some wu → r v = some wv →
        ∃ c, wu.get? i = some c ∧ wv.get? j = some c)

lemma consistentA_parts {P : Puzzle V} {r : Assignment V}
    (hcons : consistentA P r = true) {u : V} (hu : u ∈ P.vars) {wu : Word}
    (hru : r u = some wu) :
    (wu.length == P.length u) = true
    ∧ (P.vars.all (fun v => if v = u then true
        else match r v with
          | none => true
          | some w2 => !(wu == w2))) = true
    ∧ ((neighborsOf P u).all (fun nb =>
        match P.overlaps u nb, r nb with
        | some (i, j), some nw => wu.get? i == nw.get? j
        | _, _ => true)) = true := by
  have h := List.all_eq_true.mp hcons u hu
  rw [hru] at h
  have h2 : ((wu.length == P.length u)
      && (P.vars.all (fun v => if v = u then true
          else match r v with
            | none => true
            | some w2 => !(wu == w2)))
      && ((neighborsOf P u).all (fun nb =>
          match P.overlaps u nb, r nb with
          | some (i, j), some nw => wu.get? i == nw.get? j
          | _, _ => true))) = true := h
  rw [Bool.and_eq_true, Bool.and_eq_true] at h2
  exact ⟨h2.1.1, h2.1.2, h2.2⟩

lemma consistent_complete_solution {P : Puzzle V} {r : Assignment V}
    (hB : OverlapInBounds P) (hcomp : assignment_complete P r = true)
    (hcons : consistentA P r = true) : SolutionOK P r := by
  have hlen : ∀ v ∈ P.vars, ∀ w, r v = some w → w.length = P.length v := by
    intro v hv w hw
    have h := (consistentA_parts hcons hv hw).1
    simpa using h
  refine ⟨?_, hlen, ?_, ?_⟩
  · intro v hv
    have := List.all_eq_true.mp hcomp v hv
    simpa using this
  · intro u hu v hv huv wu wv hru hrv
    have h := (consistentA_parts hcons hu hru).2.1
    have h3 := List.all_eq_true.mp h v hv
    rw [if_neg (Ne.symm huv)] at h3
    rw [hrv] at h3
    have h4 : (!(wu == wv)) = true := h3
    simpa using h4
  · intro u hu v hv huv i j hov wu wv hru hrv
    have h := (consistentA_parts hcons hu hru).2.2
    have hnb : v ∈ neighborsOf P u := by
      apply List.mem_filter.mpr
      refine ⟨hv, ?_⟩
      simp [Ne.symm huv, hov]
    have h3 := List.all_eq_true.mp h v hnb
    rw [hov, hrv] at h3
    have h4 : (wu.get? i == wv.get? j) = true := h3
    have h5 : wu.get? i = wv.get? j := by simpa using h4
    have hi : i < wu.length := by
      rw [hlen u hu wu hru]
      exact (hB u v i j hov).1
    cases hgc : wu.get? i with
    | none =>
      rw [List.get?_eq_none] at hgc
      omega
    | some c =>
      refine ⟨c, rfl, ?_⟩
      rw [← h5, hgc]

lemma btLoop_some {P : Puzzle V} {bk : Domains V → Assignment V → BTRes V}
    {var : V} {Q : Assignment V → Prop}
    (hbk : ∀ (d : Domains V) (a r : Assignment V),
      consistentA P a = true → (bk d a).1 = some r → Q r) :
    ∀ (vs : List Word) (d : Domains V) (a r : Assignment V),
      (btLoop P bk var vs d a).1 = some r → Q r := by
  intro vs
  induction vs with
  | nil => intro d a r h; cases h
  | cons w ws ih =>
    intro d a r h
    by_cases hc : consistentA P (Function.update a var (some w))
    · by_cases hf : (ac3 P d).1
      · rw [btLoop_cons_recurse hc hf] at h
        rcases hbk2 : bk (ac3 P d).2 (Function.update a var (some w))
          with ⟨res, d2, a2⟩
        rw [hbk2] at h
        cases res with
        | some sol =>
          have h' : some sol = some r := h
          injection h' with h'
          subst h'
          exact hbk (ac3 P d).2 (Function.update a var (some w)) sol hc
            (by rw [hbk2])
        | none =>
          have h' : (btLoop P bk var ws d2 (Function.update a2 var none)).1
              = some r := h
          exact ih d2 _ r h'
      · have hff : (ac3 P d).1 = false := by simpa using hf
        rw [btLoop_cons_ac3fail hc hff] at h
        exact ih _ _ r h
    · have hcf : consistentA P (Function.update a var (some w)) = false := by
        simpa using hc
      rw [btLoop_cons_inconsistent hcf] at h
      exact ih _ _ r h

lemma backtrackF_some {P : Puzzle V} :
    ∀ (fuel : Nat) (d : Domains V) (a r : Assignment V),
      consistentA P a = true → (backtrackF P fuel d a).1 = some r →
      assignment_complete P r = true ∧ consistentA P r = true := by
  intro fuel
  induction fuel with
  | zero => intro d a r _ h; cases h
  | succ fuel ih =>
    intro d a r hcons h
    by_cases hcomp : assignment_complete P a = true
    · rw [backtrackF_complete fuel hcomp] at h
      have h' : some a = some r := h
      injection h' with h'
      subst h'
      exact ⟨hcomp, hcons⟩
    · have hcompf : assignment_complete P a = false := by simpa using hcomp
      cases hsel : select_unassigned_variable P d a with
      | none =>
        rw [backtrackF, hcompf, if_neg Bool.false_ne_true, hsel] at h
        cases h
      | some var =>
        rw [backtrackF_step fuel hcompf hsel] at h
        exact btLoop_some (fun d a r hc hr => ih d a r hc hr) _ d a r h

lemma consistentA_empty (P : Puzzle V) : consistentA P (fun _ => none) = true := by
  apply List.all_eq_true.mpr
  intro v _
  rfl

/-- C1: every non-failure assignment the backtracking search returns — any
`backtrack` call entered on a consistent partial assignment, and in particular
`solve`, which starts from the empty one — assigns a word to every puzzle
variable, with matching lengths, pairwise distinct words, and equal characters
at the overlap positions of every neighboring pair. -/
theorem spec_C1_search_result_valid (P : Puzzle V) (hB : OverlapInBounds P) :
    (∀ (fuel : Nat) (d : Domains V) (a r : Assignment V),
      consistentA P a = true → (backtrackF P fuel d a).1 = some r → SolutionOK P r)
    ∧ (∀ (words : List Word) (r : Assignment V),
      solve P words = some r → SolutionOK P r) := by
  constructor
  · intro fuel d a r hc h
    obtain ⟨h1, h2⟩ := backtrackF_some fuel d a r hc h
    exact consistent_complete_solution hB h1 h2
  · intro words r h
    unfold solve at h
    obtain ⟨h1, h2⟩ := backtrackF_some _ _ _ r (consistentA_empty P) h
    exact consistent_complete_solution hB h1 h2

/-! The MRV/degree variable-selection heuristic (claim C3). -/

/-- A three-variable chain puzzle: variable 1 overlaps 0 and 2. -/
def exP3 : Puzzle (Fin 3) where
  vars := [0, 1, 2]
  length := fun _ => 2
  overlaps := fun x y =>
    if (x = 0 ∧ y = 1) ∨ (x = 1 ∧ y = 0) ∨ (x = 1 ∧ y = 2) ∨ (x = 2 ∧ y = 1)
    then some (0, 0) else none

/-- Domains for the C3 instance: variables 0 and 1 are tied with the minimal
domain size 1, variable 2 has size 2. -/
def exD3 : Domains (Fin 3) := fun v =>
  if v = 0 then [['a', 'b']]
  else if v = 1 then [['c', 'd']]
  else [['e', 'f'], ['g', 'h']]

/-- C3 exposes a bug in `select_unassigned_variable`: variables 0 and 1 are
both unassigned and tied with the minimal domain size, variable 1 has the
larger neighbor count (2 versus 1) — so the documented tie-break ("If there is
a tie, choose the variable with the highest degree", generate.py lines
266-268) requires variable 1.  The code sorts the tied variables ascending by
degree (`reverse=False`) and takes element `[0]`, returning variable 0, the
tied variable with the smallest degree. -/
theorem spec_C3_select_degree_bug :
    select_unassigned_variable exP3 exD3 (fun _ => none) = some 0
    ∧ (exD3 0).length = 1 ∧ (exD3 1).length = 1 ∧ (exD3 2).length = 2
    ∧ (neighborsOf exP3 0).length = 1
    ∧ (neighborsOf exP3 1).length = 2
    ∧ (neighborsOf exP3 0).length < (neighborsOf exP3 1).length := by
  decide

/-! Strict (crash-faithful) variants of the three character-indexing loops:
Python raises IndexError on an out-of-bounds `word[i]`, which the strict
variants model as `none`.  Claim C10 states that, under node consistency and
an in-bounds overlap map, the `none` branches are unreachable and the strict
variants agree with the total embedding used above. -/

/-- Strict variant of `check` inside `revise`: `none` models the IndexError
raised by `word[i]` or `w[j]` out of bounds. -/
def chkE (i j : Nat) (word : Word) : List Word → Option Bool
  | [] => some false
  | w :: ws =>
    match word.get? i, w.get? j with
    | some c1, some c2 => if c1 = c2 then some true else chkE i j word ws
    | _, _ => none

/-- Strict short-circuiting conjunction over a list: `none` models a crash,
`some false` an early `return False`. -/
def allE {α : Type} (f : α → Option Bool) : List α → Option Bool
  | [] => some true
  | x :: xs =>
    match f x with
    | none => none
    | some false => some false
    | some true => allE f xs

/-- Strict variant of the per-variable body of `consistent`. -/
def consVarE (P : Puzzle V) (a : Assignment V) (var : V) : Option Bool :=
  match a var with
  | none => some true
  | some word =>
    match (word.length == P.length var) with
    | false => some false
    | true =>
      match (P.vars.all (fun v => if v = var then true
          else match a v with
            | none => true
            | some w2 => !(word == w2))) with
      | false => some false
      | true =>
        allE (fun nb =>
          match P.overlaps var nb, a nb with
          | some (i, j), some nw =>
            (match word.get? i, nw.get? j with
             | some c1, some c2 => some (c1 == c2)
             | _, _ => none)
          | _, _ => some true) (neighborsOf P var)

/-- Strict variant of `consistent`. -/
def consistentE (P : Puzzle V) (a : Assignment V) : Option Bool :=
  allE (consVarE P a) P.vars

/-- Strict variant of the inner counting loop of `order_domain_values`. -/
def cntE (i j : Nat) (word : Word) : List Word → Option Nat
  | [] => some 0
  | w :: ws =>
    match word.get? i, w.get? j with
    | some c1, some c2 =>
      (match cntE i j word ws with
       | none => none
       | some n => some (if c1 ≠ c2 then n + 1 else n))
    | _, _ => none

/-- Strict variant of one neighbor's contribution to the conflict count. -/
def roStepE (P : Puzzle V) (d : Domains V) (a : Assignment V) (var : V)
    (word : Word) (acc : Option Nat) (nb : V) : Option Nat :=
  match acc with
  | none => none
  | some n =>
    if (a nb).isSome then some n
    else match P.overlaps var nb with
      | none => some n
      | some (i, j) =>
        (match cntE i j word (d nb) with
         | none => none
         | some m => some (n + m))

/-- Strict variant of the conflict count of `order_domain_values`. -/
def ruleOutCountE (P : Puzzle V) (d : Domains V) (a : Assignment V)
    (var : V) (word : Word) : Option Nat :=
  (neighborsOf P var).foldl (roStepE P d a var word) (some 0)

omit [Fintype V] in
lemma chkE_eq {i j : Nat} {word : Word} {c : Char} (hc : word.get? i = some c) :
    ∀ dy : List Word, (∀ w ∈ dy, (w.get? j).isSome) →
      chkE i j word dy = some (chk dy i j word) := by
  intro dy
  induction dy with
  | nil => intro _; rfl
  | cons w ws ih =>
    intro hws
    have hw : (w.get? j).isSome := hws w (List.mem_cons_self _ _)
    cases hgw : w.get? j with
    | none => rw [hgw] at hw; cases hw
    | some c2 =>
      unfold chkE
      rw [hc, hgw]
      dsimp only
      unfold chk
      rw [List.any_cons]
      rw [hc, hgw]
      by_cases hcc : c = c2
      · rw [if_pos hcc]
        subst hcc
        simp
      · rw [if_neg hcc]
        have : (some c == some c2) = false := by
          simp [hcc]
        rw [this]
        rw [Bool.false_or]
        have ih2 := ih (fun w hw => hws w (List.mem_cons_of_mem _ hw))
        unfold chk at ih2
        rw [hc] at ih2
        exact ih2

omit [Fintype V] in
lemma allE_eq_all {α : Type} {f : α → Option Bool} {g : α → Bool} :
    ∀ l : List α, (∀ x ∈ l, f x = some (g x)) → allE f l = some (l.all g) := by
  intro l
  induction l with
  | nil => intro _; rfl
  | cons x xs ih =>
    intro hl
    unfold allE
    rw [hl x (List.mem_cons_self _ _)]
    rw [List.all_cons]
    cases hg : g x
    · rfl
    · exact ih (fun y hy => hl y (List.mem_cons_of_mem _ hy))

omit [Fintype V] in
lemma cntE_eq {i j : Nat} {word : Word} {c : Char} (hc : word.get? i = some c) :
    ∀ dl : List Word, (∀ w ∈ dl, (w.get? j).isSome) →
      cntE i j word dl = some (dl.countP (fun w => !(word.get? i == w.get? j))) := by
  intro dl
  induction dl with
  | nil => intro _; rfl
  | cons w ws ih =>
    intro hws
    have hw : (w.get? j).isSome := hws w (List.mem_cons_self _ _)
    cases hgw : w.get? j with
    | none => rw [hgw] at hw; cases hw
    | some c2 =>
      unfold cntE
      rw [hc, hgw]
      dsimp only
      rw [ih (fun w hw => hws w (List.mem_cons_of_mem _ hw))]
      rw [List.countP_cons]
      rw [hc, hgw]
      by_cases hcc : c = c2
      · subst hcc
        simp
      · have h1 : (!(some c == some c2)) = true := by simp [hcc]
        rw [h1]
        simp [hcc]

omit [Fintype V] in
lemma get?_some_of_lt {w : Word} {i : Nat} (h : i < w.length) :
    ∃ c, w.get? i = some c := by
  cases hg : w.get? i with
  | none =>
    rw [List.get?_eq_none] at hg
    omega
  | some c => exact ⟨c, rfl⟩

omit [Fintype V] in
lemma consVarE_eq {P : Puzzle V} {a : Assignment V} (hB : OverlapInBounds P)
    (hA : ∀ v ∈ P.vars, ∀ w, a v = some w → w.length = P.length v)
    {var : V} (hvar : var ∈ P.vars) :
    consVarE P a var = some (
      match a var with
      | none => true
      | some word =>
        (word.length == P.length var)
        && (P.vars.all (fun v => if v = var then true
            else match a v with
              | none => true
              | some w2 => !(word == w2)))
        && ((neighborsOf P var).all (fun nb =>
            match P.overlaps var nb, a nb with
            | some (i, j), some nw => word.get? i == nw.get? j
            | _, _ => true))) := by
  unfold consVarE
  cases hav : a var with
  | none => rfl
  | some word =>
    dsimp only
    cases hlen : (word.length == P.length var) with
    | false =>
      dsimp only
      rw [Bool.false_and, Bool.false_and]
    | true =>
      dsimp only
      cases hdis : (P.vars.all (fun v => if v = var then true
          else match a v with
            | none => true
            | some w2 => !(word == w2))) with
      | false =>
        dsimp only
        rw [Bool.true_and, Bool.false_and]
      | true =>
        dsimp only
        rw [Bool.true_and, Bool.true_and]
        apply allE_eq_all
        intro nb hnb
        have hnbv : nb ∈ P.vars := (List.mem_filter.mp hnb).1
        cases hov : P.overlaps var nb with
        | none =>
          cases han : a nb <;> rfl
        | some p =>
          obtain ⟨i, j⟩ := p
          cases han : a nb with
          | none => rfl
          | some nw =>
            have hwlen : word.length = P.length var := hA var hvar word hav
            have hnwlen : nw.length = P.length nb := hA nb hnbv nw han
            obtain ⟨hi, hj⟩ := hB var nb i j hov
            obtain ⟨c1, hc1⟩ := get?_some_of_lt (w := word) (i := i) (by omega)
            obtain ⟨c2, hc2⟩ := get?_some_of_lt (w := nw) (i := j) (by omega)
            dsimp only
            rw [hc1, hc2]
            rfl

omit [Fintype V] in
lemma consistentE_eq {P : Puzzle V} {a : Assignment V} (hB : OverlapInBounds P)
    (hA : ∀ v ∈ P.vars, ∀ w, a v = some w → w.length = P.length v) :
    consistentE P a = some (consistentA P a) := by
  unfold consistentE consistentA
  apply allE_eq_all
  intro var hvar
  exact consVarE_eq hB hA hvar

omit [Fintype V] in
lemma foldl_option_eq {α : Type} {fE : Option Nat → α → Option Nat}
    {fP : Nat → α → Nat} :
    ∀ l : List α, (∀ x ∈ l, ∀ n : Nat, fE (some n) x = some (fP n x)) →
      ∀ n : Nat, l.foldl fE (some n) = some (l.foldl fP n) := by
  intro l
  induction l with
  | nil => intro _ n; rfl
  | cons x xs ih =>
    intro hl n
    rw [List.foldl_cons, List.foldl_cons]
    rw [hl x (List.mem_cons_self _ _)]
    exact ih (fun y hy => hl y (List.mem_cons_of_mem _ hy))
      (fP n x)

omit [Fintype V] in
lemma ruleOutCountE_eq {P : Puzzle V} {d : Domains V} {a : Assignment V}
    (hB : OverlapInBounds P)
    (hD : ∀ v ∈ P.vars, ∀ w ∈ d v, w.length = P.length v)
    {var : V} (hvar : var ∈ P.vars) {word : Word}
    (hlenw : word.length = P.length var) :
    ruleOutCountE P d a var word = some (ruleOutCount P d a var word) := by
  unfold ruleOutCountE ruleOutCount
  apply foldl_option_eq
  intro nb hnb n
  have hnbv : nb ∈ P.vars := (List.mem_filter.mp hnb).1
  unfold roStepE roStep
  dsimp only
  by_cases hnba : (a nb).isSome
  · rw [if_pos hnba, if_pos hnba]
  · rw [if_neg hnba, if_neg hnba]
    cases hov : P.overlaps var nb with
    | none => rfl
    | some p =>
      obtain ⟨i, j⟩ := p
      dsimp only
      obtain ⟨hi, hj⟩ := hB var nb i j hov
      obtain ⟨c, hc⟩ := get?_some_of_lt (w := word) (i := i) (by omega)
      rw [cntE_eq hc (d nb) ?hall]
      case hall =>
        intro w hw
        have := hD nb hnbv w hw
        obtain ⟨c2, hc2⟩ := get?_some_of_lt (w := w) (i := j) (by omega)
        rw [hc2]
        rfl

/-- C10: under node consistency (every domain word and every assigned word has
its variable's length) and an in-bounds overlap map, every character access at
an overlap index performed by `revise`'s check, by `consistent`, and by the
counting loop of `order_domain_values` is in bounds: the strict Option-valued
variants never reach their out-of-bounds (`none`) branch and agree with the
total embedding. -/
theorem spec_C10_overlap_accesses_in_bounds (P : Puzzle V) (d : Domains V)
    (a : Assignment V) (hB : OverlapInBounds P)
    (hD : ∀ v ∈ P.vars, ∀ w ∈ d v, w.length = P.length v)
    (hA : ∀ v ∈ P.vars, ∀ w, a v = some w → w.length = P.length v) :
    (∀ x ∈ P.vars, ∀ y i j, P.overlaps x y = some (i, j) → y ∈ P.vars →
      ∀ word ∈ d x, chkE i j word (d y) = some (chk (d y) i j word))
    ∧ consistentE P a = some (consistentA P a)
    ∧ (∀ var ∈ P.vars, ∀ word ∈ d var,
        ruleOutCountE P d a var word = some (ruleOutCount P d a var word)) := by
  refine ⟨?_, consistentE_eq hB hA, ?_⟩
  · intro x hx y i j hov hy word hword
    have hwlen : word.length = P.length x := hD x hx word hword
    obtain ⟨hi, hj⟩ := hB x y i j hov
    obtain ⟨c, hc⟩ := get?_some_of_lt (w := word) (i := i) (by omega)
    apply chkE_eq hc
    intro w hw
    have := hD y hy w hw
    obtain ⟨c2, hc2⟩ := get?_some_of_lt (w := w) (i := j) (by omega)
    rw [hc2]
    rfl
  · intro var hvar word hword
    exact ruleOutCountE_eq hB hD hvar (hD var hvar word hword)

/-! Witness instances and witness theorems. -/

/-- A one-variable domain store holding the single word "cat". -/
def exDcat : Domains (Fin 1) := fun _ => [['c', 'a', 't']]

/-- A one-variable domain store holding "cat" and the too-short "ab". -/
def exDmix : Domains (Fin 1) := fun _ => [['c', 'a', 't'], ['a', 'b']]

/-- An arc-consistent store over the crossing puzzle `exP2`: the two words
share the character at the overlap. -/
def exDAC : Domains (Fin 2) := fun v => if v = 0 then [['a', 'b']] else [['a', 'c']]

/-- The empty assignment over one variable. -/
def exEmptyA1 : Assignment (Fin 1) := fun _ => none

/-- The assignment placing "cat" on the single variable of `exP1`. -/
def exACat : Assignment (Fin 1) := Function.update exEmptyA1 0 (some ['c', 'a', 't'])

lemma exP1_bounds : OverlapInBounds exP1 := fun _ _ _ _ h => nomatch h

lemma exP2_bounds : OverlapInBounds exP2 := by
  intro x y i j h
  have h2 : (if x ≠ y then some ((0 : Nat), (0 : Nat)) else none) = some (i, j) := h
  by_cases hxy : x ≠ y
  · rw [if_pos hxy] at h2
    injection h2 with h3
    obtain ⟨hi, hj⟩ := (Prod.mk.injEq _ _ _ _).mp h3
    constructor
    · show i < 2
      omega
    · show j < 2
      omega
  · rw [if_neg hxy] at h2
    cases h2

lemma ac3_exP1 (d : Domains (Fin 1)) : ac3 exP1 d = (true, d) := by
  show ac3Loop exP1 (initQueue exP1.vars) d = (true, d)
  have h : initQueue exP1.vars = ([] : List (Fin 1 × Fin 1)) := rfl
  rw [h, ac3Loop_nil]

lemma exDAC_arc : ArcConsistent exP2 exDAC := by
  intro x hx y hy hxy i j hov
  have h2 : (if x ≠ y then some ((0 : Nat), (0 : Nat)) else none) = some (i, j) := hov
  rw [if_pos hxy] at h2
  injection h2 with h3
  obtain ⟨hi, hj⟩ := (Prod.mk.injEq _ _ _ _).mp h3
  subst hi
  subst hj
  fin_cases x <;> fin_cases y <;> first
    | exact absurd rfl hxy
    | decide

lemma exP2_symm : SymmOverlap exP2 := by
  intro x y h
  by_cases hxy : x ≠ y
  · have h2 : exP2.overlaps y x
        = if y ≠ x then some ((0 : Nat), (0 : Nat)) else none := rfl
    rw [h2, if_pos (Ne.symm hxy)]
    rfl
  · have h2 : exP2.overlaps x y
        = if x ≠ y then some ((0 : Nat), (0 : Nat)) else none := rfl
    rw [h2, if_neg hxy] at h
    cases h

lemma solve_exP1 :
    solve exP1 [['c', 'a', 't'], ['d', 'o', 'g']] = some exACat := by
  unfold solve
  rw [ac3_exP1]
  show (backtrackF exP1 2
    (enforce_node_consistency exP1 (initDomains [['c', 'a', 't'], ['d', 'o', 'g']]))
    exEmptyA1).1 = some exACat
  rw [show (2 : Nat) = 1 + 1 from rfl]
  have h1 : assignment_complete exP1 exEmptyA1 = false := by decide
  have h2 : select_unassigned_variable exP1
      (enforce_node_consistency exP1 (initDomains [['c', 'a', 't'], ['d', 'o', 'g']]))
      exEmptyA1 = some 0 := by decide
  rw [backtrackF_step 1 h1 h2]
  show (btLoop exP1 (backtrackF exP1 1) 0 [['c', 'a', 't'], ['d', 'o', 'g']]
    (enforce_node_consistency exP1 (initDomains [['c', 'a', 't'], ['d', 'o', 'g']]))
    exEmptyA1).1 = some exACat
  have hc : consistentA exP1 (Function.update exEmptyA1 0 (some ['c', 'a', 't'])) = true := by
    decide
  have hf : (ac3 exP1 (enforce_node_consistency exP1
      (initDomains [['c', 'a', 't'], ['d', 'o', 'g']]))).1 = true := by
    rw [ac3_exP1]
  rw [btLoop_cons_recurse hc hf]
  have hcomp : assignment_complete exP1 (Function.update exEmptyA1 0 (some ['c', 'a', 't'])) = true := by
    decide
  rw [backtrackF_complete 0 hcomp]
  rfl

/-- C1 witness: solving the one-variable puzzle with words "cat"/"dog"
returns the assignment "cat", and the theorem yields its validity. -/
theorem spec_C1_witness : SolutionOK exP1 exACat :=
  (spec_C1_search_result_valid exP1 exP1_bounds).2 _ _ solve_exP1

/-- C2 witness: on the arc-consistent one-variable store, a backtrack run
leaves the domain store untouched. -/
theorem spec_C2_witness : (backtrackF exP1 2 exDcat exEmptyA1).2.1 = exDcat :=
  spec_C2_backtrack_domains_amended exP1 2 exDcat exEmptyA1
    (fun x _ y _ hxy => absurd (Subsingleton.elim x y) hxy)

/-- C4 witness: on a store with all domains non-empty, a true `ac3` run leaves
all domains non-empty. -/
theorem spec_C4_witness : ∀ v : Fin 1, exDcat v ≠ [] :=
  (spec_C4_ac3_amended exP1 exDcat).2 (by decide) exDcat (ac3_exP1 exDcat)

/-- C5 witness: the revise characterization instantiated on the concrete
crossing instance. -/
theorem spec_C5_witness :
    (∀ w, w ∈ (revise exP2 exD6 0 1).2 0
        ↔ (w ∈ exD6 0 ∧ ∃ w2 ∈ exD6 1, w.get? 0 = w2.get? 0))
    ∧ (∀ v, v ≠ 0 → (revise exP2 exD6 0 1).2 v = exD6 v)
    ∧ ((revise exP2 exD6 0 1).1 = true
        ↔ ∃ w ∈ exD6 0, w ∉ (revise exP2 exD6 0 1).2 0) :=
  (spec_C5_revise exP2 exD6 0 1).2 0 0 (by decide)

/-- C6 witness: the amended enqueueing rule instantiated on the concrete
shrinking revision, with `(y, x)` among the appended arcs. -/
theorem spec_C6_witness :
    ac3Loop exP2 [((0 : Fin 2), (1 : Fin 2))] exD6
      = ac3Loop exP2 ([] ++ (neighborsOf exP2 0).map (fun n => (n, 0)))
          (revise exP2 exD6 0 1).2
    ∧ ((1 : Fin 2), (0 : Fin 2)) ∈ (neighborsOf exP2 0).map (fun n => (n, 0)) := by
  obtain ⟨h1, h2⟩ := spec_C6_ac3_enqueues_all_neighbors exP2 [] exD6 0 1
    (by decide) (by decide)
  exact ⟨h1, h2 (by decide) (by decide)⟩

/-- C7 witness: node consistency on the concrete one-variable store filters
out exactly the word of the wrong length. -/
theorem spec_C7_witness :
    enforce_node_consistency exP1 exDmix 0
      = (exDmix 0).filter (fun w => decide (exP1.length 0 = w.length)) :=
  (spec_C7_enforce_node_consistency exP1 exDmix).1 0 (by decide)

/-- C8 witness: `ac3` on the concrete arc-consistent store returns true and
changes nothing. -/
theorem spec_C8_witness : ac3 exP2 exDAC = (true, exDAC) :=
  (spec_C8_ac3_fixed_point exP2 exDAC exP2_symm).1 exDAC_arc

/-- C9 witness: the failing concrete run of `backtrack` returns the assignment
dict to its entry state. -/
theorem spec_C9_witness :
    (backtrackF exP2 3 exD2 exEmptyA2).1 = none
    ∧ (backtrackF exP2 3 exD2 exEmptyA2).2.2 = exEmptyA2 :=
  ⟨by rw [exD2_run_backtrack],
   spec_C9_backtrack_restores_assignment exP2 3 exD2 exEmptyA2
     (by rw [exD2_run_backtrack])⟩

/-- C10 witness: the strict and total embeddings agree on the concrete
node-consistent crossing instance. -/
theorem spec_C10_witness :
    (∀ x ∈ exP2.vars, ∀ y i j, exP2.overlaps x y = some (i, j) → y ∈ exP2.vars →
      ∀ word ∈ exD6 x, chkE i j word (exD6 y) = some (chk (exD6 y) i j word))
    ∧ consistentE exP2 exEmptyA2 = some (consistentA exP2 exEmptyA2)
    ∧ (∀ var ∈ exP2.vars, ∀ word ∈ exD6 var,
        ruleOutCountE exP2 exD6 exEmptyA2 var word
          = some (ruleOutCount exP2 exD6 exEmptyA2 var word)) :=
  spec_C10_overlap_accesses_in_bounds exP2 exD6 exEmptyA2 exP2_bounds (by decide)
    (fun _ _ _ hw => nomatch hw)

end CrosswordGen
